import Mathlib

/-!
# Verification of the riptv playlist engine

A shallow embedding of `src/playlist.rs` (the M3U playlist parsing, indexing,
search and statistics engine of the riptv IPTV player), together with theorems
checking the natural-language specification against it.

Modelling conventions:
* Rust `String`/`&str` are modelled as `List Char` (`Str`); byte indices in the
  source (`line.find(',')`, slicing) always sit at ASCII character boundaries,
  so character-list splitting is equivalent.
* `std::collections::HashMap` is modelled as an association list with distinct
  keys: `insert` replaces in place or appends, the `entry` API pushes in place
  or appends.  Only lookup and key-count, which are iteration-order
  independent, enter any theorem.
* I/O (reading the playlist file) is modelled by passing the read result as an
  `Option Str` parameter; progress bars and logging are presentation-only side
  effects and are omitted.
* The external fuzzy matcher (`fuzzy_matcher::skim::SkimMatcherV2`) is
  abstracted as a parameter `Str → Str → Option Int`; `Vec::sort_by`, which
  Rust documents as a stable sort, is modelled by a stable insertion sort
  (stable sorting is unique for a total comparator, so this is faithful).
* The composite EXTINF regex is modelled by `extinfCaptures`, reproducing the
  leftmost-first (Perl-style greedy) capture semantics of the `regex` crate on
  this particular pattern: the match starts at the `#EXTINF:` prefix, group 1
  runs to the first comma, and each optional `(?:.*key="([^"]*)")?` group
  greedily commits to the rightmost occurrence of `key="` that is still
  followed by a closing quote, consuming up to and including that quote.
-/

/-- Rust strings, modelled as character lists. -/
abbrev Str := List Char

namespace Riptv

/-- Split a character list at the first occurrence of `sep`:
`some (before, after)` without the separator, or `none` when absent.
Models `str::find` plus slicing. -/
def splitAtFirst (sep : Char) : Str → Option (Str × Str)
  | [] => none
  | c :: cs =>
    if c = sep then some ([], cs)
    else match splitAtFirst sep cs with
      | none => none
      | some (b, a) => some (c :: b, a)

/-- Rust `str::trim` (whitespace from both ends); the inputs of interest are
ASCII, where Lean's `Char.isWhitespace` agrees with Rust's trimming. -/
def trimStr (s : Str) : Str :=
  ((s.dropWhile Char.isWhitespace).reverse.dropWhile Char.isWhitespace).reverse

/-- All suffixes that follow an occurrence of `pat`, listed left to right:
for every position where `pat` occurs in `s`, the text after that occurrence. -/
def sufAfter (pat : Str) : Str → List Str
  | [] => []
  | c :: cs =>
    (if pat.isPrefixOf (c :: cs) then [(c :: cs).drop pat.length] else []) ++
      sufAfter pat cs

/-- One optional greedy group `(?:.*key="([^"]*)")?` of the EXTINF regex,
applied to the remaining text `s` (the pattern `pat` is `key="`):
greedy `.*` commits to the rightmost occurrence of `pat` whose suffix still
holds a closing `"`.  Returns the captured value (text up to that quote) and
the remaining text after the quote; on no viable occurrence the group matches
empty and `s` is left untouched. -/
def matchAttr (pat : Str) (s : Str) : Option Str × Str :=
  match (sufAfter pat s).reverse.find? (fun suf => suf.contains '"') with
  | none => (none, s)
  | some suf =>
    (some (suf.takeWhile (fun c => c != '"')),
     (suf.dropWhile (fun c => c != '"')).drop 1)

/-- The capture groups of the composite EXTINF regex of `parse_parallel`
(regex groups 2–8; group 1, the duration, is never read by the code). -/
structure ExtinfCaps where
  tvg_name : Option Str
  logo : Option Str
  group : Option Str
  language : Option Str
  country : Option Str
  tvg_id : Option Str
  name_part : Option Str
  deriving DecidableEq

/-- `extinf_regex.captures(line)` for a line beginning with `#EXTINF:`:
the pattern matches exactly when the line holds a comma, group 1 eats up to
the first comma, then the six optional attribute groups fire greedily in
order on the text after the comma, and group 8 (`(.*)$`) takes the rest. -/
def extinfCaptures (line : Str) : Option ExtinfCaps :=
  match splitAtFirst ',' line with
  | none => none
  | some (_, rest0) =>
    let p1 := matchAttr ("tvg-name=\"".data) rest0
    let p2 := matchAttr ("tvg-logo=\"".data) p1.2
    let p3 := matchAttr ("group-title=\"".data) p2.2
    let p4 := matchAttr ("tvg-language=\"".data) p3.2
    let p5 := matchAttr ("tvg-country=\"".data) p4.2
    let p6 := matchAttr ("tvg-id=\"".data) p5.2
    some ⟨p1.1, p2.1, p3.1, p4.1, p5.1, p6.1, some p6.2⟩

/-- The `Channel` struct of `playlist.rs`. -/
structure Channel where
  name : Str
  url : Str
  group : Option Str
  logo : Option Str
  language : Option Str
  country : Option Str
  tvg_id : Option Str
  deriving DecidableEq

/-- `Channel::new`: name and url only, every optional field `None`. -/
def Channel.new (name url : Str) : Channel :=
  ⟨name, url, none, none, none, none, none⟩

/-- `Channel::with_metadata`. -/
def Channel.with_metadata (name url : Str)
    (group logo language country tvg_id : Option Str) : Channel :=
  ⟨name, url, group, logo, language, country, tvg_id⟩

/-- One iteration of the `parse_sequential` scan at line index `i`
(the loop runs `i` from 1): a `#EXTINF:` line whose text after the first
comma names the channel, paired with the *previous* line as URL when that
line starts with `http`. -/
def seqStep (lines : List Str) (i : Nat) : Option Channel :=
  match lines[i]? with
  | none => none
  | some line =>
    if ("#EXTINF:".data).isPrefixOf line then
      match splitAtFirst ',' line with
      | none => none
      | some (_, afterComma) =>
        match lines[i - 1]? with
        | none => none
        | some urlLine =>
          if ("http".data).isPrefixOf urlLine then
            some (Channel.new (trimStr afterComma) (trimStr urlLine))
          else none
    else none

/-- One iteration of the `parse_parallel` scan at line index `i`:
on regex success the metadata captures fill the channel
(`tvg_name.unwrap_or_else(|| name_part)`), on regex failure (no comma)
the bare-split fallback runs; either way the URL is the *previous* line. -/
def parStep (lines : List Str) (i : Nat) : Option Channel :=
  match lines[i]? with
  | none => none
  | some line =>
    if ("#EXTINF:".data).isPrefixOf line then
      match extinfCaptures line with
      | some caps =>
        let name_part := (caps.name_part.map trimStr).getD ("Unknown Channel".data)
        let channel_name := caps.tvg_name.getD name_part
        match lines[i - 1]? with
        | none => none
        | some urlLine =>
          if ("http".data).isPrefixOf urlLine then
            some (Channel.with_metadata channel_name (trimStr urlLine)
              caps.group caps.logo caps.language caps.country caps.tvg_id)
          else none
      | none =>
        match splitAtFirst ',' line with
        | none => none
        | some (_, afterComma) =>
          match lines[i - 1]? with
          | none => none
          | some urlLine =>
            if ("http".data).isPrefixOf urlLine then
              some (Channel.new (trimStr afterComma) (trimStr urlLine))
            else none
    else none

/-- `parse_sequential` on the line list: the while loop visits indices
`1, …, lines.len() − 1` in order, pushing at most one channel each. -/
def parse_sequential_lines (lines : List Str) : List Channel :=
  ((List.range lines.length).drop 1).filterMap (seqStep lines)

/-- `parse_parallel` on the line list (the `spawn_blocking` closure body). -/
def parse_parallel_lines (lines : List Str) : List Channel :=
  ((List.range lines.length).drop 1).filterMap (parStep lines)

/-- Strip the single `'\r'` that Rust's `str::lines` removes from a line that
was terminated by `"\r\n"`. -/
def rstripCR (s : Str) : Str :=
  match s.getLast? with
  | some c => if c = '\r' then s.dropLast else s
  | none => s

/-- Split on `'\n'`, keeping empty pieces (always returns ≥ 1 piece). -/
def splitOnNL : Str → List Str
  | [] => [[]]
  | c :: cs =>
    let r := splitOnNL cs
    if c = '\n' then [] :: r
    else match r with
      | [] => [[c]]
      | h :: t => (c :: h) :: t

/-- Glue for `splitOnNL`: every piece except the last was `'\n'`-terminated,
so loses one trailing `'\r'`; a final empty piece (text ended in `'\n'`)
vanishes. -/
def rustLinesAux : List Str → List Str
  | [] => []
  | [last] => if last = [] then [] else [last]
  | p :: ps => rstripCR p :: rustLinesAux ps

/-- Rust `str::lines`, as used by both parsing strategies on the file text. -/
def rustLines (text : Str) : List Str :=
  rustLinesAux (splitOnNL text)

/-- `parse_sequential` on raw playlist text. -/
def parse_sequential_text (text : Str) : List Channel :=
  parse_sequential_lines (rustLines text)

/-- `parse_parallel` on raw playlist text. -/
def parse_parallel_text (text : Str) : List Channel :=
  parse_parallel_lines (rustLines text)

/-! ## Association-list model of `std::collections::HashMap` -/

variable {α β : Type} [DecidableEq α]

/-- `HashMap::get`. -/
def alookup : List (α × β) → α → Option β
  | [], _ => none
  | (k, v) :: m, a => if k = a then some v else alookup m a

/-- `HashMap::insert`: replace the value in place, or append a new entry. -/
def ainsert : List (α × β) → α → β → List (α × β)
  | [], a, b => [(a, b)]
  | (k, v) :: m, a, b => if k = a then (k, b) :: m else (k, v) :: ainsert m a b

/-- `map.entry(a).or_insert_with(Vec::new).push(b)`. -/
def apush : List (α × List β) → α → β → List (α × List β)
  | [], a, b => [(a, [b])]
  | (k, v) :: m, a, b =>
    if k = a then (k, v ++ [b]) :: m else (k, v) :: apush m a b

/-- `*map.entry(a).or_insert(0) += 1`. -/
def abump : List (α × Nat) → α → List (α × Nat)
  | [], a => [(a, 1)]
  | (k, v) :: m, a => if k = a then (k, v + 1) :: m else (k, v) :: abump m a

/-- The keys of an association list, in entry order. -/
def akeys (m : List (α × β)) : List α := m.map Prod.fst

/-- `Vec::iter().enumerate()`, starting at `n`. -/
def enumFrom (n : Nat) : List β → List (Nat × β)
  | [] => []
  | a :: l => (n, a) :: enumFrom (n + 1) l

/-! ## The `PlaylistParser` engine state -/

/-- The `PlaylistParser` struct: channel sequence, `by_name` map
(`channel_map`), `by_group` map (`groups`), and the strategy flag. -/
structure PlaylistParser where
  channels : List Channel
  channel_map : List (Str × Nat)
  groups : List (Str × List Nat)
  parallel_processing : Bool
  deriving DecidableEq

/-- `PlaylistParser::new`. -/
def PlaylistParser.new (parallel_processing : Bool) : PlaylistParser :=
  ⟨[], [], [], parallel_processing⟩

/-- `PlaylistParser::build_indices`: two enumerate passes over the channel
sequence, inserting into the *existing* maps (the source never clears them). -/
def build_indices (st : PlaylistParser) : PlaylistParser :=
  { st with
    channel_map :=
      (enumFrom 0 st.channels).foldl
        (fun m p => ainsert m p.2.name p.1) st.channel_map
    groups :=
      (enumFrom 0 st.channels).foldl
        (fun m p =>
          match p.2.group with
          | some g => apush m g p.1
          | none => m) st.groups }

/-- `PlaylistParser::parse_file`, with the `fs::read_to_string` result passed
in as `readResult` (`none` models an I/O failure).  Returns the Rust
`Result<()>` together with the state of `&mut self` after the call. -/
def parse_file (st : PlaylistParser) (path : Str) (readResult : Option Str) :
    Except Str Unit × PlaylistParser :=
  match readResult with
  | none =>
    (Except.error (("Failed to read playlist file: ".data) ++ path), st)
  | some content =>
    let st' := { st with
      channels :=
        if st.parallel_processing then parse_parallel_text content
        else parse_sequential_text content }
    (Except.ok (), build_indices st')

/-- A freshly loaded snapshot: a new parser whose channels are `chs`, after
its first `build_indices` (what a single `parse_file` call installs). -/
def loadedFrom (par : Bool) (chs : List Channel) : PlaylistParser :=
  build_indices { PlaylistParser.new par with channels := chs }

/-- `PlaylistParser::get_channel_by_name`. -/
def get_channel_by_name (st : PlaylistParser) (name : Str) : Option Channel :=
  (alookup st.channel_map name).bind (fun idx => st.channels[idx]?)

/-- `PlaylistParser::get_channels_by_group`. -/
def get_channels_by_group (st : PlaylistParser) (group : Str) : List Channel :=
  ((alookup st.groups group).map
    (fun indices => indices.filterMap (fun idx => st.channels[idx]?))).getD []

/-! ## Search -/

/-- The scored match list of `search_channels`: each channel whose name the
matcher scores against the query, in sequence order.  The external
`SkimMatcherV2` is abstracted as the `matcher` parameter. -/
def scoredChannels (matcher : Str → Str → Option Int)
    (channels : List Channel) (query : Str) : List (Int × Channel) :=
  channels.filterMap (fun c => (matcher c.name query).map (fun s => (s, c)))

/-- Stable insertion used to model `Vec::sort_by(|a, b| b.0.cmp(&a.0))`
(a stable descending sort by score): an element moves past only strictly
higher-scored ones, so equal scores keep their original order. -/
def insertDesc (x : Int × Channel) :
    List (Int × Channel) → List (Int × Channel)
  | [] => [x]
  | y :: ys => if x.1 < y.1 then y :: insertDesc x ys else x :: y :: ys

/-- Stable descending-by-score sort; the unique stable sort for this
comparator, hence the exact output of Rust's `sort_by`. -/
def sortDesc : List (Int × Channel) → List (Int × Channel)
  | [] => []
  | x :: xs => insertDesc x (sortDesc xs)

/-- `PlaylistParser::search_channels`: score every channel name, sort stably
by descending score, drop the scores. -/
def search_channels (matcher : Str → Str → Option Int)
    (st : PlaylistParser) (query : Str) : List Channel :=
  (sortDesc (scoredChannels matcher st.channels query)).map Prod.snd

/-! ## Statistics -/

/-- The `PlaylistStats` struct. -/
structure PlaylistStats where
  total_channels : Nat
  total_groups : Nat
  channels_per_group : List (Str × Nat)
  countries : List (Str × Nat)
  languages : List (Str × Nat)

/-- `PlaylistParser::get_statistics`.  The source fills `countries` and
`languages` in one loop over the channels; the two accumulators are
independent, so they are modelled as two folds. -/
def get_statistics (st : PlaylistParser) : PlaylistStats :=
  { total_channels := st.channels.length
    total_groups := st.groups.length
    channels_per_group :=
      st.groups.foldl (fun m p => ainsert m p.1 p.2.length) []
    countries :=
      st.channels.foldl
        (fun m c =>
          match c.country with
          | some x => abump m x
          | none => m) []
    languages :=
      st.channels.foldl
        (fun m c =>
          match c.language with
          | some x => abump m x
          | none => m) [] }

/-! ## Association-list lemmas -/

theorem alookup_ainsert (m : List (α × β)) (a : α) (b : β) (k : α) :
    alookup (ainsert m a b) k = if k = a then some b else alookup m k := by
  induction m with
  | nil =>
    by_cases h : k = a
    · subst h; simp [ainsert, alookup]
    · have h' : ¬a = k := fun hh => h hh.symm
      simp [ainsert, alookup, h, h']
  | cons p m ih =>
    obtain ⟨k₁, v₁⟩ := p
    by_cases h₁ : k₁ = a
    · subst h₁
      by_cases h₂ : k₁ = k
      · subst h₂; simp [ainsert, alookup]
      · have h₂' : ¬k = k₁ := fun hh => h₂ hh.symm
        simp [ainsert, alookup, h₂, h₂']
    · by_cases h₂ : k₁ = k
      · subst h₂
        have h₁' : ¬k₁ = a := h₁
        simp [ainsert, alookup, h₁']
      · simp [ainsert, alookup, h₁, h₂, ih]

theorem alookup_apush (m : List (α × List β)) (a : α) (b : β) (k : α) :
    alookup (apush m a b) k =
      if k = a then some ((alookup m a).getD [] ++ [b]) else alookup m k := by
  induction m with
  | nil =>
    by_cases h : k = a
    · subst h; simp [apush, alookup]
    · have h' : ¬a = k := fun hh => h hh.symm
      simp [apush, alookup, h, h']
  | cons p m ih =>
    obtain ⟨k₁, v₁⟩ := p
    by_cases h₁ : k₁ = a
    · subst h₁
      by_cases h₂ : k₁ = k
      · subst h₂; simp [apush, alookup]
      · have h₂' : ¬k = k₁ := fun hh => h₂ hh.symm
        simp [apush, alookup, h₂, h₂']
    · by_cases h₂ : k₁ = k
      · subst h₂
        simp [apush, alookup, h₁]
      · simp [apush, alookup, h₁, h₂, ih]

theorem alookup_abump (m : List (α × Nat)) (a : α) (k : α) :
    alookup (abump m a) k =
      if k = a then some ((alookup m a).getD 0 + 1) else alookup m k := by
  induction m with
  | nil =>
    by_cases h : k = a
    · subst h; simp [abump, alookup]
    · have h' : ¬a = k := fun hh => h hh.symm
      simp [abump, alookup, h, h']
  | cons p m ih =>
    obtain ⟨k₁, v₁⟩ := p
    by_cases h₁ : k₁ = a
    · subst h₁
      by_cases h₂ : k₁ = k
      · subst h₂; simp [abump, alookup]
      · have h₂' : ¬k = k₁ := fun hh => h₂ hh.symm
        simp [abump, alookup, h₂, h₂']
    · by_cases h₂ : k₁ = k
      · subst h₂
        simp [abump, alookup, h₁]
      · simp [abump, alookup, h₁, h₂, ih]

theorem alookup_eq_none_of_notMem_akeys {m : List (α × β)} {k : α}
    (h : k ∉ akeys m) : alookup m k = none := by
  induction m with
  | nil => simp [alookup]
  | cons p m ih =>
    obtain ⟨k₁, v₁⟩ := p
    simp only [akeys, List.map_cons, List.mem_cons] at h
    push_neg at h
    have h₁ : ¬k₁ = k := fun hh => h.1 hh.symm
    simp [alookup, h₁, ih (by simpa [akeys] using h.2)]

theorem mem_akeys_of_alookup_eq_some {m : List (α × β)} {k : α} {v : β}
    (h : alookup m k = some v) : k ∈ akeys m := by
  by_contra hk
  rw [alookup_eq_none_of_notMem_akeys hk] at h
  exact Option.noConfusion h

theorem akeys_ainsert (m : List (α × β)) (a : α) (b : β) :
    akeys (ainsert m a b) = if a ∈ akeys m then akeys m else akeys m ++ [a] := by
  induction m with
  | nil => simp [ainsert, akeys]
  | cons p m ih =>
    obtain ⟨k₁, v₁⟩ := p
    by_cases h₁ : k₁ = a
    · subst h₁; simp [ainsert, akeys]
    · have h₁' : ¬a = k₁ := fun hh => h₁ hh.symm
      by_cases h₂ : a ∈ akeys m
      · simp only [ainsert, if_neg h₁, akeys, List.map_cons] at ih ⊢
        simp only [akeys] at ih h₂
        simp [List.mem_cons, h₁', h₂, ih]
      · simp only [ainsert, if_neg h₁, akeys, List.map_cons] at ih ⊢
        simp only [akeys] at ih h₂
        simp [List.mem_cons, h₁', h₂, ih]

theorem nodup_akeys_ainsert {m : List (α × β)} (a : α) (b : β)
    (h : (akeys m).Nodup) : (akeys (ainsert m a b)).Nodup := by
  rw [akeys_ainsert]
  by_cases hm : a ∈ akeys m
  · simpa [hm]
  · simpa [hm, List.nodup_append] using h

/-! ## Characterizing `build_indices` -/

/-- The index (counting from `n`) of the *last* channel named `k`. -/
def lastNameIdx (k : Str) (n : Nat) : List Channel → Option Nat
  | [] => none
  | c :: l =>
    match lastNameIdx k (n + 1) l with
    | some j => some j
    | none => if c.name = k then some n else none

theorem alookup_name_fold (chs : List Channel) (n : Nat)
    (m : List (Str × Nat)) (k : Str) :
    alookup ((enumFrom n chs).foldl (fun m p => ainsert m p.2.name p.1) m) k =
      match lastNameIdx k n chs with
      | some j => some j
      | none => alookup m k := by
  induction chs generalizing n m with
  | nil => simp [enumFrom, lastNameIdx]
  | cons c l ih =>
    simp only [enumFrom, List.foldl_cons, lastNameIdx]
    rw [ih]
    cases h : lastNameIdx k (n + 1) l with
    | some j => simp
    | none =>
      rw [alookup_ainsert]
      by_cases hc : c.name = k
      · simp [hc]
      · have hc' : ¬k = c.name := fun hh => hc hh.symm
        simp [hc, hc']

theorem lastNameIdx_eq_none {k : Str} {chs : List Channel} (n : Nat)
    (h : ∀ c ∈ chs, c.name ≠ k) : lastNameIdx k n chs = none := by
  induction chs generalizing n with
  | nil => simp [lastNameIdx]
  | cons c l ih =>
    have hc : c.name ≠ k := h c (by simp)
    simp [lastNameIdx, ih (n + 1) (fun c' hc' => h c' (by simp [hc'])), hc]

theorem lastNameIdx_eq_some {k : Str} {chs : List Channel} {j : Nat}
    {cj : Channel} (n : Nat) (hj : chs[j]? = some cj) (hn : cj.name = k)
    (hmax : ∀ c ∈ chs.drop (j + 1), c.name ≠ k) :
    lastNameIdx k n chs = some (n + j) := by
  induction chs generalizing n j with
  | nil => simp at hj
  | cons c l ih =>
    cases j with
    | zero =>
      simp only [List.getElem?_cons_zero, Option.some.injEq] at hj
      subst hj
      have hnone : lastNameIdx k (n + 1) l = none :=
        lastNameIdx_eq_none (n + 1) (by simpa using hmax)
      simp [lastNameIdx, hnone, hn]
    | succ j' =>
      simp only [List.getElem?_cons_succ] at hj
      have := ih (n + 1) hj (by simpa using hmax)
      simp only [lastNameIdx, this]
      congr 1
      omega

/-- The positions (counting from `n`) of the channels whose group is `g`,
in sequence order. -/
def groupPositions (g : Str) (n : Nat) : List Channel → List Nat
  | [] => []
  | c :: l =>
    (if c.group = some g then [n] else []) ++ groupPositions g (n + 1) l

theorem alookup_group_fold (chs : List Channel) (n : Nat)
    (m : List (Str × List Nat)) (g : Str) :
    (alookup ((enumFrom n chs).foldl
        (fun m p =>
          match p.2.group with
          | some gr => apush m gr p.1
          | none => m) m) g).getD [] =
      (alookup m g).getD [] ++ groupPositions g n chs := by
  induction chs generalizing n m with
  | nil => simp [enumFrom, groupPositions]
  | cons c l ih =>
    simp only [enumFrom, List.foldl_cons]
    cases hg : c.group with
    | none => simp [hg, ih, groupPositions]
    | some gr =>
      simp only [hg]
      rw [ih]
      rw [alookup_apush]
      by_cases hge : g = gr
      · subst hge
        simp [groupPositions, hg, List.append_assoc]
      · have hge' : ¬gr = g := fun hh => hge hh.symm
        simp [groupPositions, hg, hge, hge']

theorem mem_groupPositions {g : Str} {chs : List Channel} {n i : Nat}
    (h : i ∈ groupPositions g n chs) :
    n ≤ i ∧ ∃ c, chs[i - n]? = some c ∧ c.group = some g := by
  induction chs generalizing n with
  | nil => simp [groupPositions] at h
  | cons c l ih =>
    simp only [groupPositions, List.mem_append] at h
    rcases h with h | h
    · by_cases hg : c.group = some g
      · simp only [hg, if_true, eq_self_iff_true, List.mem_singleton] at h
        subst h
        exact ⟨le_refl _, c, by simp, hg⟩
      · simp [hg] at h
    · obtain ⟨hle, c', hc', hg'⟩ := ih h
      refine ⟨by omega, c', ?_, hg'⟩
      have hi : i - n = (i - (n + 1)) + 1 := by omega
      rw [hi, List.getElem?_cons_succ]
      exact hc'

theorem pairwise_groupPositions (g : Str) (chs : List Channel) (n : Nat) :
    List.Pairwise (· < ·) (groupPositions g n chs) := by
  induction chs generalizing n with
  | nil => simp [groupPositions]
  | cons c l ih =>
    by_cases hg : c.group = some g
    · simp only [groupPositions, hg, if_true, eq_self_iff_true,
        List.singleton_append, List.pairwise_cons]
      exact ⟨fun x hx => by have := (mem_groupPositions hx).1; omega, ih (n + 1)⟩
    · simp [groupPositions, hg, ih (n + 1)]

theorem length_groupPositions (g : Str) (chs : List Channel) (n : Nat) :
    (groupPositions g n chs).length =
      chs.countP (fun c => decide (c.group = some g)) := by
  induction chs generalizing n with
  | nil => simp [groupPositions]
  | cons c l ih =>
    by_cases hg : c.group = some g
    · simp [groupPositions, hg, ih (n + 1), List.countP_cons]
    · simp [groupPositions, hg, ih (n + 1), List.countP_cons]

/-! ## Keys, nodup and extensionality of the association-list maps -/

theorem akeys_apush (m : List (α × List β)) (a : α) (b : β) :
    akeys (apush m a b) = if a ∈ akeys m then akeys m else akeys m ++ [a] := by
  induction m with
  | nil => simp [apush, akeys]
  | cons p m ih =>
    obtain ⟨k₁, v₁⟩ := p
    by_cases h₁ : k₁ = a
    · subst h₁; simp [apush, akeys]
    · have h₁' : ¬a = k₁ := fun hh => h₁ hh.symm
      by_cases h₂ : a ∈ akeys m
      · simp only [apush, if_neg h₁, akeys, List.map_cons] at ih ⊢
        simp only [akeys] at ih h₂
        simp [List.mem_cons, h₁', h₂, ih]
      · simp only [apush, if_neg h₁, akeys, List.map_cons] at ih ⊢
        simp only [akeys] at ih h₂
        simp [List.mem_cons, h₁', h₂, ih]

theorem nodup_akeys_apush {m : List (α × List β)} (a : α) (b : β)
    (h : (akeys m).Nodup) : (akeys (apush m a b)).Nodup := by
  rw [akeys_apush]
  by_cases hm : a ∈ akeys m
  · simpa [hm]
  · simpa [hm, List.nodup_append] using h

/-- Two association lists with the same (duplicate-free) key sequence and the
same lookups are equal. -/
theorem assoc_ext {m₁ m₂ : List (α × β)} (hk : akeys m₁ = akeys m₂)
    (hnd : (akeys m₁).Nodup) (hl : ∀ k, alookup m₁ k = alookup m₂ k) :
    m₁ = m₂ := by
  induction m₁ generalizing m₂ with
  | nil =>
    cases m₂ with
    | nil => rfl
    | cons q m₂ => simp [akeys] at hk
  | cons p m₁ ih =>
    obtain ⟨k₁, v₁⟩ := p
    cases m₂ with
    | nil => simp [akeys] at hk
    | cons q m₂ =>
      obtain ⟨k₂, v₂⟩ := q
      simp only [akeys, List.map_cons, List.cons.injEq] at hk
      obtain ⟨hk12, hktail⟩ := hk
      subst hk12
      simp only [akeys, List.map_cons, List.nodup_cons] at hnd
      have hv : v₁ = v₂ := by
        have := hl k₁
        simpa [alookup] using this
      subst hv
      have htail : ∀ k, alookup m₁ k = alookup m₂ k := by
        intro k
        by_cases hkk : k₁ = k
        · subst hkk
          rw [alookup_eq_none_of_notMem_akeys (by simpa [akeys] using hnd.1),
            alookup_eq_none_of_notMem_akeys
              (by simp only [akeys, ← hktail]; exact hnd.1)]
        · have := hl k
          simpa [alookup, hkk] using this
      rw [ih hktail hnd.2 htail]

theorem nodup_akeys_name_fold (chs : List Channel) (n : Nat)
    (m : List (Str × Nat)) (h : (akeys m).Nodup) :
    (akeys ((enumFrom n chs).foldl
      (fun m p => ainsert m p.2.name p.1) m)).Nodup := by
  induction chs generalizing n m with
  | nil => simpa [enumFrom]
  | cons c l ih =>
    simp only [enumFrom, List.foldl_cons]
    exact ih (n + 1) _ (nodup_akeys_ainsert _ _ h)

theorem akeys_name_fold_of_member (chs : List Channel) (n : Nat)
    (m : List (Str × Nat)) (h : ∀ c ∈ chs, c.name ∈ akeys m) :
    akeys ((enumFrom n chs).foldl
      (fun m p => ainsert m p.2.name p.1) m) = akeys m := by
  induction chs generalizing n m with
  | nil => simp [enumFrom]
  | cons c l ih =>
    simp only [enumFrom, List.foldl_cons]
    have hkeys : akeys (ainsert m c.name n) = akeys m := by
      rw [akeys_ainsert, if_pos (h c (by simp))]
    rw [ih (n + 1) _ (fun c' hc' => by rw [hkeys]; exact h c' (by simp [hc']))]
    exact hkeys

theorem name_mem_akeys_name_fold (chs : List Channel) (n : Nat)
    (m : List (Str × Nat)) {c : Channel} (hc : c ∈ chs) :
    c.name ∈ akeys ((enumFrom n chs).foldl
      (fun m p => ainsert m p.2.name p.1) m) := by
  have hsome : lastNameIdx c.name n chs ≠ none := by
    clear m
    induction chs generalizing n with
    | nil => simp at hc
    | cons c' l ih =>
      rcases List.mem_cons.mp hc with h | h
      · subst h
        cases hlast : lastNameIdx c.name (n + 1) l with
        | some j => simp [lastNameIdx, hlast]
        | none => simp [lastNameIdx, hlast]
      · cases hlast : lastNameIdx c.name (n + 1) l with
        | some j => simp [lastNameIdx, hlast]
        | none => exact absurd hlast (ih (n + 1) h)
  cases hlast : lastNameIdx c.name n chs with
  | none => exact absurd hlast hsome
  | some j =>
    apply mem_akeys_of_alookup_eq_some (v := j)
    rw [alookup_name_fold, hlast]

theorem akeys_group_fold_toFinset (chs : List Channel) (n : Nat)
    (m : List (Str × List Nat)) :
    (akeys ((enumFrom n chs).foldl
        (fun m p =>
          match p.2.group with
          | some gr => apush m gr p.1
          | none => m) m)).toFinset =
      (akeys m).toFinset ∪ (chs.filterMap Channel.group).toFinset := by
  induction chs generalizing n m with
  | nil => simp [enumFrom]
  | cons c l ih =>
    simp only [enumFrom, List.foldl_cons]
    cases hg : c.group with
    | none => simp [hg, ih]
    | some gr =>
      simp only [hg]
      rw [ih]
      rw [akeys_apush]
      by_cases hm : gr ∈ akeys m
      · have : gr ∈ (akeys m).toFinset := List.mem_toFinset.mpr hm
        simp [hm, hg, Finset.union_insert, Finset.insert_eq_self.mpr
          (Finset.mem_union_left _ this)]
      · rw [if_neg hm]
        ext x
        simp only [List.toFinset_append, List.toFinset_cons, List.toFinset_nil,
          Finset.mem_union, Finset.mem_insert, Finset.not_mem_empty, or_false,
          List.mem_toFinset, List.mem_filterMap, List.mem_cons]
        constructor
        · rintro ((h | h) | h)
          · exact Or.inl h
          · exact Or.inr ⟨c, Or.inl rfl, h ▸ hg⟩
          · obtain ⟨a, ha, hga⟩ := h
            exact Or.inr ⟨a, Or.inr ha, hga⟩
        · rintro (h | ⟨a, (ha | ha), hga⟩)
          · exact Or.inl (Or.inl h)
          · subst ha
            rw [hg] at hga
            exact Or.inl (Or.inr (Option.some.inj hga).symm)
          · exact Or.inr ⟨a, ha, hga⟩

theorem nodup_akeys_group_fold (chs : List Channel) (n : Nat)
    (m : List (Str × List Nat)) (h : (akeys m).Nodup) :
    (akeys ((enumFrom n chs).foldl
      (fun m p =>
        match p.2.group with
        | some gr => apush m gr p.1
        | none => m) m)).Nodup := by
  induction chs generalizing n m with
  | nil => simpa [enumFrom]
  | cons c l ih =>
    simp only [enumFrom, List.foldl_cons]
    cases hg : c.group with
    | none => simpa [hg] using ih (n + 1) m h
    | some gr =>
      simpa [hg] using ih (n + 1) _ (nodup_akeys_apush gr n h)

theorem alookup_length_fold (m : List (Str × List Nat))
    (acc : List (Str × Nat)) (k : Str) (hnd : (akeys m).Nodup) :
    alookup (m.foldl (fun acc p => ainsert acc p.1 p.2.length) acc) k =
      match alookup m k with
      | some v => some v.length
      | none => alookup acc k := by
  induction m generalizing acc with
  | nil => simp [alookup]
  | cons p t ih =>
    obtain ⟨k₁, v₁⟩ := p
    simp only [akeys, List.map_cons, List.nodup_cons] at hnd
    simp only [List.foldl_cons]
    rw [ih _ hnd.2]
    by_cases hk : k₁ = k
    · subst hk
      have ht : alookup t k₁ = none :=
        alookup_eq_none_of_notMem_akeys (by simpa [akeys] using hnd.1)
      simp [ht, alookup, alookup_ainsert]
    · have hk' : ¬k = k₁ := fun hh => hk hh.symm
      cases h : alookup t k with
      | some v => simp [alookup, hk, h]
      | none => simp [alookup, hk, hk', h, alookup_ainsert]

theorem optfield_fold_getD (f : Channel → Option Str) (chs : List Channel)
    (m : List (Str × Nat)) (k : Str) :
    (alookup (chs.foldl
        (fun m c =>
          match f c with
          | some x => abump m x
          | none => m) m) k).getD 0 =
      (alookup m k).getD 0 + chs.countP (fun c => decide (f c = some k)) := by
  induction chs generalizing m with
  | nil => simp
  | cons c l ih =>
    simp only [List.foldl_cons]
    cases hc : f c with
    | none => simp [hc, ih, List.countP_cons]
    | some x =>
      simp only [hc]
      rw [ih]
      rw [alookup_abump]
      by_cases hk : k = x
      · subst hk
        simp [List.countP_cons, hc]
        omega
      · have hx : f c ≠ some k := by
          rw [hc]
          intro hh
          exact hk (Option.some.inj hh).symm
        simp [hk, List.countP_cons, hx]

/-! ## Stable-sort lemmas for `search_channels` -/

theorem mem_insertDesc {x z : Int × Channel} :
    ∀ {l : List (Int × Channel)}, z ∈ insertDesc x l → z = x ∨ z ∈ l := by
  intro l
  induction l with
  | nil => simp [insertDesc]
  | cons y ys ih =>
    intro h
    by_cases hxy : x.1 < y.1
    · simp only [insertDesc, if_pos hxy, List.mem_cons] at h
      rcases h with h | h
      · exact Or.inr (List.mem_cons.mpr (Or.inl h))
      · rcases ih h with h' | h'
        · exact Or.inl h'
        · exact Or.inr (List.mem_cons.mpr (Or.inr h'))
    · simp only [insertDesc, if_neg hxy, List.mem_cons] at h
      rcases h with h | h | h
      · exact Or.inl h
      · exact Or.inr (List.mem_cons.mpr (Or.inl h))
      · exact Or.inr (List.mem_cons.mpr (Or.inr h))

theorem pairwise_insertDesc (x : Int × Channel) {l : List (Int × Channel)}
    (h : List.Pairwise (fun a b => b.1 ≤ a.1) l) :
    List.Pairwise (fun a b => b.1 ≤ a.1) (insertDesc x l) := by
  induction l with
  | nil => simp [insertDesc]
  | cons y ys ih =>
    rcases List.pairwise_cons.mp h with ⟨hy, hys⟩
    by_cases hxy : x.1 < y.1
    · simp only [insertDesc, if_pos hxy]
      refine List.pairwise_cons.mpr ⟨?_, ih hys⟩
      intro z hz
      rcases mem_insertDesc hz with rfl | hz'
      · omega
      · exact hy z hz'
    · simp only [insertDesc, if_neg hxy]
      refine List.pairwise_cons.mpr ⟨?_, h⟩
      intro z hz
      rcases List.mem_cons.mp hz with rfl | hz'
      · omega
      · have := hy z hz'
        omega

theorem pairwise_sortDesc (l : List (Int × Channel)) :
    List.Pairwise (fun a b => b.1 ≤ a.1) (sortDesc l) := by
  induction l with
  | nil => simp [sortDesc]
  | cons x xs ih => exact pairwise_insertDesc x ih

theorem filter_insertDesc (x : Int × Channel) (l : List (Int × Channel))
    (s : Int) :
    (insertDesc x l).filter (fun p => p.1 == s) =
      (x :: l).filter (fun p => p.1 == s) := by
  induction l with
  | nil => rfl
  | cons y ys ih =>
    by_cases hxy : x.1 < y.1
    · simp only [insertDesc, if_pos hxy]
      by_cases hx : x.1 = s
      · have hy : ¬(y.1 = s) := by omega
        simp [List.filter_cons, hx, hy, ih]
      · simp [List.filter_cons, hx, ih]
    · simp [insertDesc, hxy]

theorem filter_sortDesc (l : List (Int × Channel)) (s : Int) :
    (sortDesc l).filter (fun p => p.1 == s) =
      l.filter (fun p => p.1 == s) := by
  induction l with
  | nil => rfl
  | cons x xs ih =>
    rw [sortDesc, filter_insertDesc]
    by_cases hx : x.1 = s
    · simp [List.filter_cons, hx, ih]
    · simp [List.filter_cons, hx, ih]

/-! ## Pointwise URL agreement of the two parsing strategies -/

set_option maxHeartbeats 1000000 in
theorem step_url_eq (lines : List Str) (i : Nat) :
    (parStep lines i).map Channel.url = (seqStep lines i).map Channel.url := by
  unfold parStep seqStep
  cases hline : lines[i]? with
  | none => rfl
  | some line =>
    cases hpre : ("#EXTINF:".data).isPrefixOf line with
    | false => simp [hpre]
    | true =>
      simp only [hpre, if_true]
      cases hsp : splitAtFirst ',' line with
      | none => simp [extinfCaptures, hsp]
      | some p =>
        obtain ⟨b, a⟩ := p
        simp only [extinfCaptures, hsp]
        cases hurl : lines[i - 1]? with
        | none => rfl
        | some urlLine =>
          cases hhttp : ("http".data).isPrefixOf urlLine with
          | true => simp [hhttp, Channel.new, Channel.with_metadata]
          | false => simp [hhttp]

theorem filterMap_map_url_congr (f g : Nat → Option Channel)
    (h : ∀ i, (f i).map Channel.url = (g i).map Channel.url)
    (l : List Nat) :
    (l.filterMap f).map Channel.url = (l.filterMap g).map Channel.url := by
  induction l with
  | nil => rfl
  | cons a l ih =>
    have ha := h a
    cases hf : f a with
    | none =>
      rw [hf] at ha
      cases hg : g a with
      | none => simp [List.filterMap_cons, hf, hg, ih]
      | some c => rw [hg] at ha; simp at ha
    | some c =>
      rw [hf] at ha
      cases hg : g a with
      | none => rw [hg] at ha; simp at ha
      | some c' =>
        rw [hg] at ha
        simp only [Option.map_some'] at ha
        simp [List.filterMap_cons, hf, hg, ih]
        exact Option.some.inj ha

/-! ## The claims -/

/-- Claim C1, counterexample: on the playlist text
`http://u\n#EXTINF:-1,x tvg-name="A" y\n` the two strategies disagree — the
parallel regex path captures `tvg-name` (it occurs after the comma) and names
the channel `A`, while the sequential path names it the whole post-comma text
— refuting "sequential and parallel parsing strategies produce identical
ordered Channel sequences". -/
theorem c1_counterexample :
    parse_parallel_text ("http://u\n#EXTINF:-1,x tvg-name=\"A\" y\n".data) ≠
      parse_sequential_text ("http://u\n#EXTINF:-1,x tvg-name=\"A\" y\n".data) := by
  decide

/-- Claim C1, amended: for every playlist text the sequential and the
parallel-chunked strategy produce channel sequences of the same length with
the same url at every position; the remaining fields need not agree (the
sequential path never extracts tvg metadata). -/
theorem c1_strategies_agree_on_urls_and_length (text : Str) :
    (parse_parallel_text text).map Channel.url =
      (parse_sequential_text text).map Channel.url
    ∧ (parse_parallel_text text).length = (parse_sequential_text text).length := by
  have h : (parse_parallel_text text).map Channel.url =
      (parse_sequential_text text).map Channel.url := by
    unfold parse_parallel_text parse_sequential_text
      parse_parallel_lines parse_sequential_lines
    exact filterMap_map_url_congr _ _ (step_url_eq (rustLines text)) _
  refine ⟨h, ?_⟩
  have h2 := congrArg List.length h
  simpa using h2

/-- Claim C2: on the spec's canonical input
`#EXTINF:-1 tvg-name="Foo" group-title="News",Foo HD\nhttp://x/y\n` both
strategies produce no channel at all: the code pairs a metadata line with the
*preceding* line as URL (`lines.get(i - 1)`), so the standard
metadata-then-URL order never matches. -/
theorem c2_canonical_example_yields_no_channel :
    parse_parallel_text
        ("#EXTINF:-1 tvg-name=\"Foo\" group-title=\"News\",Foo HD\nhttp://x/y\n".data)
      = []
    ∧ parse_sequential_text
        ("#EXTINF:-1 tvg-name=\"Foo\" group-title=\"News\",Foo HD\nhttp://x/y\n".data)
      = [] := by
  decide

/-- Claim C3, counterexample: `build_indices` never clears the previous maps,
so running it a second time over the unchanged one-channel sequence appends
position 0 again to the `"G"` bucket — the indices are not bit-identical and
the `by_group` list gains a duplicate entry. -/
theorem c3_counterexample :
    (build_indices (loadedFrom false
        [⟨"A".data, "u".data, some ("G".data), none, none, none, none⟩])).groups ≠
      (loadedFrom false
        [⟨"A".data, "u".data, some ("G".data), none, none, none, none⟩]).groups
    ∧ alookup (build_indices (loadedFrom false
        [⟨"A".data, "u".data, some ("G".data), none, none, none, none⟩])).groups
        ("G".data) = some [0, 0] := by
  decide

/-- Claim C3, amended: rebuilding the indices over the same unchanged channel
sequence leaves `by_name` bit-identical, but it is not idempotent on
`by_group`: every group bucket gets the block of positions appended a second
time (so each bucket doubles). -/
theorem c3_rebuild_names_stable_groups_doubled (par : Bool) (chs : List Channel) :
    (build_indices (loadedFrom par chs)).channel_map =
      (loadedFrom par chs).channel_map
    ∧ ∀ g, (alookup (build_indices (loadedFrom par chs)).groups g).getD [] =
        (alookup (loadedFrom par chs).groups g).getD [] ++
          (alookup (loadedFrom par chs).groups g).getD [] := by
  constructor
  · have hch : (loadedFrom par chs).channels = chs := rfl
    have hcm : (loadedFrom par chs).channel_map =
        (enumFrom 0 chs).foldl (fun m p => ainsert m p.2.name p.1) [] := rfl
    have hnd : (akeys (loadedFrom par chs).channel_map).Nodup := by
      rw [hcm]
      exact nodup_akeys_name_fold chs 0 [] (by simp [akeys])
    apply assoc_ext
    · show akeys ((enumFrom 0 chs).foldl (fun m p => ainsert m p.2.name p.1)
        (loadedFrom par chs).channel_map) = _
      apply akeys_name_fold_of_member
      intro c hc
      rw [hcm]
      exact name_mem_akeys_name_fold chs 0 [] hc
    · show (akeys ((enumFrom 0 chs).foldl (fun m p => ainsert m p.2.name p.1)
        (loadedFrom par chs).channel_map)).Nodup
      rw [akeys_name_fold_of_member chs 0 _
        (fun c hc => by rw [hcm]; exact name_mem_akeys_name_fold chs 0 [] hc)]
      exact hnd
    · intro k
      show alookup ((enumFrom 0 chs).foldl (fun m p => ainsert m p.2.name p.1)
        (loadedFrom par chs).channel_map) k = _
      rw [alookup_name_fold, hcm, alookup_name_fold]
      cases h : lastNameIdx k 0 chs <;> simp
  · intro g
    have h1 : (alookup (loadedFrom par chs).groups g).getD [] =
        groupPositions g 0 chs := by
      show (alookup ((enumFrom 0 chs).foldl
        (fun m p =>
          match p.2.group with
          | some gr => apush m gr p.1
          | none => m) []) g).getD [] = _
      rw [alookup_group_fold]
      simp [alookup]
    have h2 : (alookup (build_indices (loadedFrom par chs)).groups g).getD [] =
        (alookup (loadedFrom par chs).groups g).getD [] ++
          groupPositions g 0 chs := by
      show (alookup ((enumFrom 0 chs).foldl
        (fun m p =>
          match p.2.group with
          | some gr => apush m gr p.1
          | none => m) (loadedFrom par chs).groups) g).getD [] = _
      rw [alookup_group_fold]
    rw [h2, h1]

/-- Claim C4: with two channels of the same name at positions `i < j` (and
`j` the last position carrying that name), after index building `by_name`
maps the name to the later position `j`, while both channels remain in the
sequence and reachable by position. -/
theorem c4_last_writer_wins (par : Bool) (chs : List Channel) (i j : Nat)
    (ci cj : Channel) (nm : Str) (hij : i < j)
    (hi : chs[i]? = some ci) (hin : ci.name = nm)
    (hj : chs[j]? = some cj) (hjn : cj.name = nm)
    (hmax : ∀ c ∈ chs.drop (j + 1), c.name ≠ nm) :
    alookup (loadedFrom par chs).channel_map nm = some j
    ∧ chs[i]? = some ci ∧ chs[j]? = some cj := by
  refine ⟨?_, hi, hj⟩
  have hlast : lastNameIdx nm 0 chs = some j := by
    have := lastNameIdx_eq_some 0 hj hjn hmax
    simpa using this
  show alookup ((enumFrom 0 chs).foldl
    (fun m p => ainsert m p.2.name p.1) []) nm = some j
  rw [alookup_name_fold, hlast]

/-- Witness for C4 at a concrete two-channel playlist. -/
theorem c4_last_writer_wins_witness :
    alookup (loadedFrom false [Channel.new ("X".data) ("u1".data),
        Channel.new ("X".data) ("u2".data)]).channel_map ("X".data) = some 1
    ∧ [Channel.new ("X".data) ("u1".data),
        Channel.new ("X".data) ("u2".data)][0]? =
        some (Channel.new ("X".data) ("u1".data))
    ∧ [Channel.new ("X".data) ("u1".data),
        Channel.new ("X".data) ("u2".data)][1]? =
        some (Channel.new ("X".data) ("u2".data)) :=
  c4_last_writer_wins false
    [Channel.new ("X".data) ("u1".data), Channel.new ("X".data) ("u2".data)]
    0 1 (Channel.new ("X".data) ("u1".data)) (Channel.new ("X".data) ("u2".data))
    ("X".data) (by decide) (by decide) (by decide) (by decide) (by decide)
    (by decide)

/-- Claim C5, counterexample: on
`http://u\n#EXTINF:-1,x tvg-name="" y\n` the `tvg-name` attribute is present
with an empty value, and the emitted channel's name is the empty string, not
the comma-derived label — refuting "when the tvg-name attribute is present
but its value is the empty string, the name falls back to the comma-derived
display label" (`unwrap_or_else` only falls back on an absent capture). -/
theorem c5_counterexample :
    (parse_parallel_text ("http://u\n#EXTINF:-1,x tvg-name=\"\" y\n".data)).map
        Channel.name = [[]]
    ∧ ([] : Str) ≠ trimStr ("x tvg-name=\"\" y".data) := by
  decide

/-- Claim C5, amended: whenever the EXTINF regex captures a `tvg-name` value,
the emitted channel's name is that value — even when it is empty; the
comma-derived label is used only when the attribute is not captured. -/
theorem c5_captured_tvg_name_always_used (lines : List Str) (i : Nat)
    (line : Str) (caps : ExtinfCaps) (v : Str) (c : Channel)
    (hline : lines[i]? = some line)
    (hcaps : extinfCaptures line = some caps)
    (hv : caps.tvg_name = some v)
    (hc : parStep lines i = some c) :
    c.name = v := by
  unfold parStep at hc
  rw [hline] at hc
  dsimp only at hc
  cases hpre : ("#EXTINF:".data).isPrefixOf line with
  | false => rw [hpre] at hc; simp at hc
  | true =>
    rw [hpre] at hc
    simp only [if_true] at hc
    rw [hcaps] at hc
    dsimp only at hc
    cases hurl : lines[i - 1]? with
    | none => rw [hurl] at hc; simp at hc
    | some urlLine =>
      rw [hurl] at hc
      dsimp only at hc
      cases hhttp : ("http".data).isPrefixOf urlLine with
      | false => rw [hhttp] at hc; simp at hc
      | true =>
        rw [hhttp] at hc
        simp only [if_true, Option.some.injEq] at hc
        rw [← hc]
        simp [Channel.with_metadata, hv]

/-- Witness for C5 (amended) at the concrete empty-`tvg-name` input. -/
theorem c5_captured_tvg_name_always_used_witness :
    (Channel.with_metadata [] ("http://u".data)
      none none none none none).name = [] :=
  c5_captured_tvg_name_always_used
    ["http://u".data, "#EXTINF:-1,x tvg-name=\"\" y".data] 1
    ("#EXTINF:-1,x tvg-name=\"\" y".data)
    ⟨some [], none, none, none, none, none, some (" y".data)⟩ []
    (Channel.with_metadata [] ("http://u".data) none none none none none)
    (by decide) (by decide) (by decide) (by decide)

/-- Claim C6: after a fresh index build, each `by_group` bucket holds exactly
the positions of the channels with that group, in increasing sequence order,
and a channel without a group appears in no bucket. -/
theorem c6_by_group_exact_positions (par : Bool) (chs : List Channel) (g : Str) :
    (alookup (loadedFrom par chs).groups g).getD [] = groupPositions g 0 chs
    ∧ List.Pairwise (· < ·) ((alookup (loadedFrom par chs).groups g).getD [])
    ∧ ∀ i c, chs[i]? = some c → c.group = none →
        i ∉ (alookup (loadedFrom par chs).groups g).getD [] := by
  have h1 : (alookup (loadedFrom par chs).groups g).getD [] =
      groupPositions g 0 chs := by
    show (alookup ((enumFrom 0 chs).foldl
      (fun m p =>
        match p.2.group with
        | some gr => apush m gr p.1
        | none => m) []) g).getD [] = _
    rw [alookup_group_fold]
    simp [alookup]
  refine ⟨h1, ?_, ?_⟩
  · rw [h1]
    exact pairwise_groupPositions g chs 0
  · intro i c hic hgnone hmem
    rw [h1] at hmem
    obtain ⟨-, c', hc', hg'⟩ := mem_groupPositions hmem
    simp only [Nat.sub_zero] at hc'
    rw [hic] at hc'
    rw [(Option.some.inj hc').symm] at hg'
    rw [hgnone] at hg'
    exact Option.noConfusion hg'

/-- Witness for C6 at a concrete groupless one-channel playlist. -/
theorem c6_by_group_exact_positions_witness :
    (alookup (loadedFrom false [Channel.new ("A".data) ("u".data)]).groups
        ("G".data)).getD [] =
      groupPositions ("G".data) 0 [Channel.new ("A".data) ("u".data)]
    ∧ List.Pairwise (· < ·)
        ((alookup (loadedFrom false [Channel.new ("A".data) ("u".data)]).groups
          ("G".data)).getD [])
    ∧ 0 ∉ (alookup (loadedFrom false
        [Channel.new ("A".data) ("u".data)]).groups ("G".data)).getD [] :=
  ⟨(c6_by_group_exact_positions false [Channel.new ("A".data) ("u".data)]
      ("G".data)).1,
   (c6_by_group_exact_positions false [Channel.new ("A".data) ("u".data)]
      ("G".data)).2.1,
   (c6_by_group_exact_positions false [Channel.new ("A".data) ("u".data)]
      ("G".data)).2.2 0 (Channel.new ("A".data) ("u".data))
      (by decide) (by decide)⟩

/-- Claim C7: when reading the playlist source fails, `parse_file` returns
the typed read error carrying the source path and leaves the parser state
exactly as it was before the call. -/
theorem c7_read_error_keeps_state (st : PlaylistParser) (path : Str) :
    parse_file st path none =
      (Except.error (("Failed to read playlist file: ".data) ++ path), st) :=
  rfl

/-- Claim C8: over any loaded snapshot, `get_statistics` reports the channel
count, the number of distinct group values, the per-group member counts, and
country/language counts to which channels lacking the field contribute
nothing. -/
theorem c8_statistics_counts (par : Bool) (chs : List Channel) :
    (get_statistics (loadedFrom par chs)).total_channels = chs.length
    ∧ (get_statistics (loadedFrom par chs)).total_groups =
        (chs.filterMap Channel.group).toFinset.card
    ∧ (∀ g, (alookup (get_statistics (loadedFrom par chs)).channels_per_group
          g).getD 0 = chs.countP (fun c => decide (c.group = some g)))
    ∧ (∀ k, (alookup (get_statistics (loadedFrom par chs)).countries k).getD 0 =
        chs.countP (fun c => decide (c.country = some k)))
    ∧ (∀ k, (alookup (get_statistics (loadedFrom par chs)).languages k).getD 0 =
        chs.countP (fun c => decide (c.language = some k))) := by
  have hgroups : (loadedFrom par chs).groups =
      (enumFrom 0 chs).foldl
        (fun m p =>
          match p.2.group with
          | some gr => apush m gr p.1
          | none => m) [] := rfl
  have hnd : (akeys (loadedFrom par chs).groups).Nodup := by
    rw [hgroups]
    exact nodup_akeys_group_fold chs 0 [] (by simp [akeys])
  have hgetd : ∀ g, (alookup (loadedFrom par chs).groups g).getD [] =
      groupPositions g 0 chs := by
    intro g
    rw [hgroups, alookup_group_fold]
    simp [alookup]
  have hch : (loadedFrom par chs).channels = chs := rfl
  refine ⟨rfl, ?_, ?_, ?_, ?_⟩
  · show (loadedFrom par chs).groups.length = _
    have hlen : (loadedFrom par chs).groups.length =
        (akeys (loadedFrom par chs).groups).length := by simp [akeys]
    rw [hlen, ← List.toFinset_card_of_nodup hnd, hgroups,
      akeys_group_fold_toFinset]
    simp [akeys]
  · intro g
    show (alookup ((loadedFrom par chs).groups.foldl
      (fun acc p => ainsert acc p.1 p.2.length) []) g).getD 0 = _
    rw [alookup_length_fold _ _ _ hnd]
    cases h : alookup (loadedFrom par chs).groups g with
    | none =>
      have := hgetd g
      rw [h] at this
      simp only [Option.getD_none] at this
      simp [alookup, ← length_groupPositions g chs 0, ← this]
    | some v =>
      have := hgetd g
      rw [h] at this
      simp only [Option.getD_some] at this
      simp [← length_groupPositions g chs 0, ← this]
  · intro k
    show (alookup ((loadedFrom par chs).channels.foldl
      (fun m c =>
        match c.country with
        | some x => abump m x
        | none => m) []) k).getD 0 = _
    rw [optfield_fold_getD Channel.country]
    simp [alookup, hch]
  · intro k
    show (alookup ((loadedFrom par chs).channels.foldl
      (fun m c =>
        match c.language with
        | some x => abump m x
        | none => m) []) k).getD 0 = _
    rw [optfield_fold_getD Channel.language]
    simp [alookup, hch]

/-- Claim C9: search and the two lookups are total — a query no channel name
matches yields `[]`, an unknown name yields `none`, an unknown group yields
`[]`; no error value exists in any of their result types. -/
theorem c9_lookups_never_fail (matcher : Str → Str → Option Int)
    (st : PlaylistParser) (q nm g : Str) :
    ((∀ c ∈ st.channels, matcher c.name q = none) →
        search_channels matcher st q = [])
    ∧ (alookup st.channel_map nm = none → get_channel_by_name st nm = none)
    ∧ (alookup st.groups g = none → get_channels_by_group st g = []) := by
  refine ⟨?_, ?_, ?_⟩
  · intro h
    have hs : scoredChannels matcher st.channels q = [] := by
      apply List.filterMap_eq_nil_iff.mpr
      intro c hc
      rw [h c hc]
      rfl
    unfold search_channels
    rw [hs]
    rfl
  · intro h
    unfold get_channel_by_name
    rw [h]
    rfl
  · intro h
    unfold get_channels_by_group
    rw [h]
    rfl

/-- Witness for C9 on an empty parser and an everywhere-`none` matcher. -/
theorem c9_lookups_never_fail_witness :
    search_channels (fun _ _ => none) (PlaylistParser.new false) [] = []
    ∧ get_channel_by_name (PlaylistParser.new false) ("Z".data) = none
    ∧ get_channels_by_group (PlaylistParser.new false) ("Z".data) = [] :=
  ⟨(c9_lookups_never_fail (fun _ _ => none) (PlaylistParser.new false) []
      ("Z".data) ("Z".data)).1 (by decide),
   (c9_lookups_never_fail (fun _ _ => none) (PlaylistParser.new false) []
      ("Z".data) ("Z".data)).2.1 (by decide),
   (c9_lookups_never_fail (fun _ _ => none) (PlaylistParser.new false) []
      ("Z".data) ("Z".data)).2.2 (by decide)⟩

/-- Claim C10: the result of `search_channels` is the scored list stably
sorted by descending score — for every score the equally-scored entries keep
their original sequence order (the filter by any fixed score is unchanged by
the sort), so results are fully deterministic for a fixed matcher. -/
theorem c10_search_ties_keep_sequence_order
    (matcher : Str → Str → Option Int) (st : PlaylistParser) (q : Str)
    (s : Int) :
    search_channels matcher st q =
      (sortDesc (scoredChannels matcher st.channels q)).map Prod.snd
    ∧ (sortDesc (scoredChannels matcher st.channels q)).filter
        (fun p => p.1 == s) =
        (scoredChannels matcher st.channels q).filter (fun p => p.1 == s)
    ∧ List.Pairwise (fun a b => b.1 ≤ a.1)
        (sortDesc (scoredChannels matcher st.channels q)) :=
  ⟨rfl, filter_sortDesc _ _, pairwise_sortDesc _⟩

end Riptv
